import Mathlib

/-!
Verification of the Orbit ingestion/embedding pipeline core
(apps/ingestion-pipeline/internal/chunking/chunking.go and
apps/embedding-pipeline/internal/storage/logs_storage.go) against its
natural-language specification.

The Go code is shallowly embedded: pure functions become Lean functions,
strings are Lean `String` (Go byte lengths are modelled as character counts;
all texts of interest are ASCII, where the two coincide), Go `int` values that
are always non-negative become `Nat`, fallible calls return `Except`, and
external effects (the Gemini HTTP endpoint, the Kafka producer, the Qdrant
batch write) are oracles passed as function arguments.
-/

namespace Orbit

/-! ### Go string helpers

Models of `strings.Fields`, `strings.TrimSpace`, `strings.HasPrefix`,
`strings.TrimPrefix`, `strings.TrimSuffix` and `strings.Join(ws, " ")`, over `String.data`.
`Char.isWhitespace` stands in for `unicode.IsSpace`; the two agree on the
ASCII whitespace that occurs in every input considered here. -/

/-- Accumulator worker for `fields`: scans the character list, collecting the
current word in `acc` (reversed) and emitting maximal runs of
non-whitespace characters, exactly as `strings.Fields` does. -/
def fieldsAux : List Char → List Char → List (List Char)
  | [], acc => if acc = [] then [] else [acc.reverse]
  | c :: cs, acc =>
    if c.isWhitespace then
      if acc = [] then fieldsAux cs [] else acc.reverse :: fieldsAux cs []
    else fieldsAux cs (c :: acc)

/-- Go `strings.Fields`: the maximal whitespace-free substrings, in order. -/
def fields (s : String) : List String :=
  (fieldsAux s.data []).map String.mk

/-- Go `strings.TrimSpace`: drop leading and trailing whitespace. -/
def trimSpace (s : String) : String :=
  ⟨((s.data.dropWhile Char.isWhitespace).reverse.dropWhile Char.isWhitespace).reverse⟩

/-- Go `strings.Join(ws, " ")`; also the contents of the `strings.Builder`
in `divideIntoSections`, which writes a `" "` separator before every word
except the first. -/
def joinSpace : List String → String
  | [] => ""
  | [w] => w
  | w :: ws => w ++ " " ++ joinSpace ws

/-- Go `strings.HasPrefix`. -/
def strStartsWith (s pre : String) : Bool := pre.data.isPrefixOf s.data

/-- Go `strings.TrimPrefix`. -/
def strTrimStart (s pre : String) : String :=
  if strStartsWith s pre then ⟨s.data.drop pre.data.length⟩ else s

/-- Go `strings.HasSuffix`. -/
def strEndsWith (s suf : String) : Bool := suf.data.isSuffixOf s.data

/-- Go `strings.TrimSuffix`. -/
def strTrimEnd (s suf : String) : String :=
  if strEndsWith s suf then ⟨s.data.take (s.data.length - suf.data.length)⟩ else s

/-! ### The chunker configuration (struct `AgenticChunker`)

Only the fields the embedded functions read are kept: `apiKey`, `baseURL`,
the HTTP client and the Kafka producer/topic handles are I/O handles whose
behaviour enters the model as oracle arguments instead. -/

/-- The configuration fields of Go struct `AgenticChunker` used by the
embedded functions (`maxRetries`, `sectionSize`, `maxCharsPerSection`).
`NewAgenticChunker` sets `maxRetries := 3` and `maxCharsPerSection := 12000`;
`sectionSize` is set per document by `calculateOptimalSectionSize`. -/
structure AgenticChunker where
  maxRetries : Nat
  sectionSize : Nat
  maxCharsPerSection : Nat
  deriving Repr, DecidableEq

/-- Function `calculateOptimalSectionSize` from chunking.go lines 179-200, verbatim
(Go integer division on non-negative values is `Nat` division). -/
def calculateOptimalSectionSize (textLength : Nat) : Nat :=
  if textLength > 100000 then 1800
  else if textLength > 50000 then 3000
  else
    let targetConcurrency := 10
    let estimatedWords := textLength / 5
    let optimalSectionSize := estimatedWords / targetConcurrency
    let minSectionSize := 1200
    let maxSectionSize := 3600
    if optimalSectionSize < minSectionSize then minSectionSize
    else if optimalSectionSize > maxSectionSize then maxSectionSize
    else optimalSectionSize

/-! ### `divideIntoSections` (chunking.go lines 202-233)

The loop state is `(sections, currentSection, wordCount)`.  The Go
`strings.Builder` `currentSection` always holds its accumulated words joined
by single spaces, so it is carried here as that word list; every occurrence of
`currentSection.Len()` in the source is translated as
`(joinSpace cur).length`, and the emitted string
`strings.TrimSpace(currentSection.String())` as `trimSpace (joinSpace cur)`. -/

/-- One iteration of the `for _, word := range words` loop of
`divideIntoSections`.  The source's emit branch resets the builder and the
word count and then appends the word to the now-empty builder; that is
inlined here as the state `(sections ++ [cur], [word], 1)`.  (The `cur = []`
guard of the append-with-separator is subsumed: `fields` never yields an
empty word, so a builder of length 0 is exactly the empty word list.) -/
def divideStep (ac : AgenticChunker) :
    List (List String) × List String × Nat → String → List (List String) × List String × Nat
  | (sections, cur, wordCount), word =>
    let willExceedWordLimit : Bool := decide (wordCount ≥ ac.sectionSize)
    let willExceedCharLimit : Bool :=
      decide ((joinSpace cur).length > 0) &&
        decide ((joinSpace cur).length + word.length + 1 > ac.maxCharsPerSection)
    if (willExceedWordLimit || willExceedCharLimit) && decide ((joinSpace cur).length > 0) then
      (sections ++ [cur], [word], 1)
    else (sections, cur ++ [word], wordCount + 1)

/-- Function `divideIntoSections` from chunking.go lines 202-233: fold the
word list through `divideStep`, emit the final non-empty section, and render
each section the way the source does (`strings.TrimSpace` of the builder). -/
def divideIntoSections (ac : AgenticChunker) (text : String) : List String :=
  let words := fields text
  let st := words.foldl (divideStep ac) ([], [], 0)
  let sections := if (joinSpace st.2.1).length > 0 then st.1 ++ [st.2.1] else st.1
  sections.map (fun sec => trimSpace (joinSpace sec))

/-! ### `splitLargeSection` (chunking.go lines 416-432) -/

/-- The `for i := 0; i < len(words); i += maxWordsPerSubSection` loop of
`splitLargeSection`, grouping the word list into blocks of `k` words
(`words[i:end]`).  The Go loop never terminates when `k = 0`; that case is
unreachable in the source (`k = maxCharsPerSection / 6 = 2000`) and the model
returns `[]` there. -/
def chunkEveryGo (k : Nat) : Nat → List String → List (List String)
  | _, [] => []
  | 0, _ :: _ => []
  | fuel + 1, w :: ws => ((w :: ws).take k) :: chunkEveryGo k fuel ((w :: ws).drop k)

/-- Wrapper giving `chunkEveryGo` enough fuel: with `k ≥ 1` every iteration
consumes at least one word, so `ws.length` iterations always suffice and the
fuel never runs out. -/
def chunkEvery (k : Nat) (ws : List String) : List (List String) :=
  if k = 0 then [] else chunkEveryGo k ws.length ws

/-- Function `splitLargeSection` from chunking.go lines 416-432: split the word list
into blocks of `maxCharsPerSection / 6` words and space-join each block. -/
def splitLargeSection (ac : AgenticChunker) (text : String) : List String :=
  let words := fields text
  let maxWordsPerSubSection := ac.maxCharsPerSection / 6
  (chunkEvery maxWordsPerSubSection words).map joinSpace

/-! ### Data model (models/document.go)

`ChunkMetadata`, `Chunk` (its `Vector []float32` field is never touched by
the chunking pipeline and is omitted), `ChunkOutput`, `SourceInfo`, and the
decoded Gemini response types. -/

/-- Go struct `models.ChunkMetadata`. -/
structure ChunkMetadata where
  topic : String
  keywords : List String
  entities : List String
  summary : String
  category : String
  sentiment : String
  complexity : String
  language : String
  wordCount : Nat
  chunkIndex : Nat
  timestamp : String
  deriving Repr, DecidableEq

/-- Go struct `models.Chunk` (the unused `Vector` field omitted). -/
structure Chunk where
  id : String
  content : String
  metadata : ChunkMetadata
  deriving Repr, DecidableEq

/-- Go struct `models.SourceInfo` (its Go field `Section` is named
`sectionLabel` here because `section` is a Lean keyword). -/
structure SourceInfo where
  documentTitle : String
  documentType : String
  sectionLabel : String
  pageNumber : Option Int
  lastModified : String
  deriving Repr, DecidableEq

/-- Go struct `models.ChunkOutput`. -/
structure ChunkOutput where
  text : String
  source : SourceInfo
  chunkMetadata : ChunkMetadata
  deriving Repr, DecidableEq

/-- One entry of the `chunks` array of Go struct `models.GeminiChunkerResponse`.
Note the remote schema has no word-count and no timestamp field at all. -/
structure GeminiChunk where
  content : String
  topic : String
  keywords : List String
  entities : List String
  summary : String
  category : String
  sentiment : String
  complexity : String
  language : String
  deriving Repr, DecidableEq

/-- Go struct `models.GeminiChunkerResponse`. -/
structure GeminiChunkerResponse where
  chunks : List GeminiChunk
  deriving Repr, DecidableEq

/-! ### `callGeminiAPI` (chunking.go lines 278-353)

One iteration of the retry loop can fail at seven places (request creation,
transport, HTTP 429, other non-200 status, body read, JSON unmarshal, empty
candidate list) — every one sets `lastErr` and `continue`s — or succeed and
return the first candidate's text.  The network is an oracle
`Nat → GeminiAttempt` giving the outcome of each attempt. -/

/-- The outcome of one iteration of `callGeminiAPI`'s retry loop. -/
inductive GeminiAttempt where
  | reqBuildError (msg : String)
  | transportError (msg : String)
  | rateLimited
  | badStatus (status : Nat) (body : String)
  | readBodyError (msg : String)
  | unmarshalError (msg : String)
  | emptyCandidates
  | success (text : String)
  deriving Repr, DecidableEq

/-- Whether the attempt returned usable candidate text. -/
def GeminiAttempt.isSuccess : GeminiAttempt → Bool
  | .success _ => true
  | _ => false

/-- The candidate text of a successful attempt
(`geminiResp.Candidates[0].Content.Parts[0].Text`). -/
def GeminiAttempt.text : GeminiAttempt → String
  | .success t => t
  | _ => ""

/-- The `lastErr` message each failed attempt leaves behind. -/
def GeminiAttempt.errMsg : GeminiAttempt → String
  | .reqBuildError m => "failed to create request: " ++ m
  | .transportError m => "failed to make request: " ++ m
  | .rateLimited => "rate limit exceeded"
  | .badStatus _ b => "api request failed: " ++ b
  | .readBodyError m => "failed to read response body: " ++ m
  | .unmarshalError m => "failed to unmarshal response: " ++ m
  | .emptyCandidates => "no content in gemini response"
  | .success _ => ""

/-- The observable trace of one `callGeminiAPI` call: its result, the number
of attempts made against the remote endpoint, and the seconds slept before
each retry, in order. -/
structure CallTrace where
  result : Except String String
  attemptsUsed : Nat
  sleeps : List Nat
  deriving Repr

/-- The `for attempt := 0; attempt <= ac.maxRetries; attempt++` loop of
`callGeminiAPI`, entered at iteration `attempt` with pending error `lastErr`:
each iteration with `attempt > 0` first sleeps `attempt * attempt` seconds;
a successful attempt returns its text; a failed one records its message and
continues; exhausting the loop surfaces the terminal error. -/
def callGeminiLoop (oracle : Nat → GeminiAttempt) (attempt : Nat)
    (lastErr : String) : Nat → CallTrace
  | 0 => ⟨.error ("failed after retries: " ++ lastErr), 0, []⟩
  | remaining + 1 =>
    let backoff := if attempt > 0 then [attempt * attempt] else []
    let outcome := oracle attempt
    if outcome.isSuccess then ⟨.ok outcome.text, 1, backoff⟩
    else
      let rest := callGeminiLoop oracle (attempt + 1) outcome.errMsg remaining
      ⟨rest.result, rest.attemptsUsed + 1, backoff ++ rest.sleeps⟩

/-- Function `callGeminiAPI` from chunking.go lines 278-353 (request
marshalling is infallible in the model; the per-attempt outcome is the
oracle's).  The loop bound `attempt <= ac.maxRetries` is carried as the count
`maxRetries + 1` of iterations still allowed. -/
def callGeminiAPI (ac : AgenticChunker) (oracle : Nat → GeminiAttempt) : CallTrace :=
  callGeminiLoop oracle 0 "" (ac.maxRetries + 1)

/-! ### `parseGeminiResponse` (chunking.go lines 355-398)

`json.Unmarshal` into `GeminiChunkerResponse` is an oracle
`decode : String → Option GeminiChunkerResponse`; `time.Now().Unix()` and the
RFC3339-formatted `time.Now().UTC()` taken after decoding are the parameters
`nowUnix` and `nowTimestamp`. -/

/-- The code-fence stripping and trimming applied to the raw response before
`json.Unmarshal` (chunking.go lines 356-366). -/
def stripCodeFence (response : String) : String :=
  let response := trimSpace response
  let response :=
    if strStartsWith response "```json" then
      strTrimEnd (strTrimStart response "```json") "```"
    else if strStartsWith response "```" then
      strTrimEnd (strTrimStart response "```") "```"
    else response
  trimSpace response

/-- The chunk id `fmt.Sprintf("chunk_%d_%d_%d", time.Now().Unix(), sectionIndex, i)`. -/
def mkChunkID (nowUnix : Nat) (sectionIndex : Nat) (i : Nat) : String :=
  "chunk_" ++ toString nowUnix ++ "_" ++ toString sectionIndex ++ "_" ++ toString i

/-- Function `parseGeminiResponse` from chunking.go lines 355-398. -/
def parseGeminiResponse (decode : String → Option GeminiChunkerResponse)
    (nowUnix : Nat) (nowTimestamp : String) (response : String)
    (sectionIndex : Nat) : Except String (List Chunk) :=
  let response := stripCodeFence response
  match decode response with
  | none => .error "failed to parse gemini json response"
  | some geminiResp =>
    .ok (geminiResp.chunks.mapIdx (fun i geminiChunk =>
      { id := mkChunkID nowUnix sectionIndex i
        content := geminiChunk.content
        metadata :=
          { topic := geminiChunk.topic
            keywords := geminiChunk.keywords
            entities := geminiChunk.entities
            summary := geminiChunk.summary
            category := geminiChunk.category
            sentiment := geminiChunk.sentiment
            complexity := geminiChunk.complexity
            language := geminiChunk.language
            wordCount := (fields geminiChunk.content).length
            chunkIndex := i
            timestamp := nowTimestamp } }))

/-- The combined index `sectionIndex*1000 + subIndex` that `processSubSection`
(chunking.go line 408) passes to `parseGeminiResponse`. -/
def subSectionKey (sectionIndex subIndex : Nat) : Nat :=
  sectionIndex * 1000 + subIndex

/-! ### `streamChunkToKafka` (chunking.go lines 140-177)

JSON serialization, the producer's `Produce` call and the delivery-report
channel are oracles.  The `select` waits on the per-message delivery channel
against a `time.After(5 * time.Second)` timeout; its outcome is a
`DeliveryEvent`.  An event that is not a `*kafka.Message` falls through the
type switch and the function returns `nil`. -/

/-- A `kafka.Header` (key/value pair). -/
structure KafkaHeader where
  key : String
  value : String
  deriving Repr, DecidableEq

/-- The `kafka.Message` built by `streamChunkToKafka`.  `Partition` is always
`kafka.PartitionAny`; the `Key` field of Go's `kafka.Message` is never
assigned, so it is `none`. -/
structure KafkaMessage where
  topic : String
  key : Option String
  value : String
  headers : List KafkaHeader
  deriving Repr, DecidableEq

/-- The outcome of the `select` on the delivery channel. -/
inductive DeliveryEvent where
  | delivered
  | deliveryError (msg : String)
  | timeout
  | otherEvent
  deriving Repr, DecidableEq

/-- The `time.After(5 * time.Second)` bound of the delivery wait, in seconds. -/
def deliveryTimeoutSeconds : Nat := 5

/-- The message `streamChunkToKafka` hands to `Produce`
(chunking.go lines 148-159). -/
def buildKafkaMessage (kafkaTopic : String) (serialize : ChunkOutput → String)
    (chunk : ChunkOutput) : KafkaMessage :=
  { topic := kafkaTopic
    key := none
    value := serialize chunk
    headers :=
      [ ⟨"chunk_id", chunk.chunkMetadata.topic⟩,
        ⟨"document_type", chunk.source.documentType⟩,
        ⟨"timestamp", chunk.chunkMetadata.timestamp⟩ ] }

/-- Function `streamChunkToKafka` from chunking.go lines 140-177.  `produce` returns
`some err` when the producer rejects the message, else `none`; `delivery` is
what the `select` observes within `deliveryTimeoutSeconds`. -/
def streamChunkToKafka (kafkaTopic : String) (serialize : ChunkOutput → String)
    (produce : KafkaMessage → Option String) (delivery : DeliveryEvent)
    (chunk : ChunkOutput) : Except String Unit :=
  let msg := buildKafkaMessage kafkaTopic serialize chunk
  match produce msg with
  | some e => .error ("failed to produce message: " ++ e)
  | none =>
    match delivery with
    | .delivered => .ok ()
    | .otherEvent => .ok ()
    | .deliveryError e => .error ("delivery failed: " ++ e)
    | .timeout => .error "delivery confirmation timeout"

/-! ### The worker (chunking.go lines 452-481)

`sectionResult` and the per-job body.  `processSectionConcurrently`'s outcome
for the job (the analysis side) and `streamChunkToKafka`'s outcome per chunk
(the publish side) are oracles; the model returns, in order, every
`sectionResult` the worker sends for one job, together with every
`ChunkOutput` it attempted to publish. -/

/-- Go struct `sectionResult` (a nil `chunks` slice is `none`). -/
structure SectionResult where
  chunks : Option (List Chunk)
  err : Option String
  index : Nat
  deriving Repr, DecidableEq

/-- The `models.ChunkOutput` the worker builds for each chunk
(chunking.go lines 463-468). -/
def toChunkOutput (sourceInfo : SourceInfo) (chunk : Chunk) : ChunkOutput :=
  { text := chunk.content
    source := sourceInfo
    chunkMetadata := chunk.metadata }

/-- The `for _, chunk := range chunks` publish loop of the worker
(chunking.go lines 463-477): on a publish error it sends a failed
`sectionResult` and `continue`s — to the next chunk of the same section.
Returns the results sent from inside the loop and the publishes attempted. -/
def workerPublishLoop (publish : ChunkOutput → Except String Unit)
    (sourceInfo : SourceInfo) (index : Nat) :
    List Chunk → List SectionResult × List ChunkOutput
  | [] => ([], [])
  | chunk :: rest =>
    let chunkOutput := toChunkOutput sourceInfo chunk
    let (rs, ps) := workerPublishLoop publish sourceInfo index rest
    match publish chunkOutput with
    | .error streamErr => (⟨none, some streamErr, index⟩ :: rs, chunkOutput :: ps)
    | .ok _ => (rs, chunkOutput :: ps)

/-- One iteration of the worker's job loop (chunking.go lines 455-480):
`process` is `processSectionConcurrently`'s outcome for the job.  After the
publish loop the worker unconditionally sends a final successful
`sectionResult` carrying the full chunk list. -/
def workerProcessJob (process : Except String (List Chunk))
    (publish : ChunkOutput → Except String Unit) (sourceInfo : SourceInfo)
    (index : Nat) : List SectionResult × List ChunkOutput :=
  match process with
  | .error e => ([⟨none, some e, index⟩], [])
  | .ok chunks =>
    let (rs, ps) := workerPublishLoop publish sourceInfo index chunks
    (rs ++ [⟨some chunks, none, index⟩], ps)

/-! ### `ChunkTextStreaming` (chunking.go lines 78-137)

The guard phase is modelled exactly; the worker pool is collapsed to
processing the section jobs in order (the claims settled against this
function concern only the guard phase, which runs before any worker is
spawned).  The trace records how many sections were handed to workers and how
many bus publishes were attempted. -/

/-- What `ChunkTextStreaming` did besides returning: sections dispatched and
publish attempts made. -/
structure StreamTrace where
  sectionsProcessed : Nat
  messagesProduced : Nat
  deriving Repr, DecidableEq

/-- Function `ChunkTextStreaming` from chunking.go lines 78-137.  `producerInitialized`
models `ac.kafkaProducer != nil`; `process i s` is
`processSectionConcurrently`'s outcome for section `i` with text `s`;
`publish` is `streamChunkToKafka`'s outcome per chunk output. -/
def chunkTextStreaming (ac : AgenticChunker) (producerInitialized : Bool)
    (process : Nat → String → Except String (List Chunk))
    (publish : ChunkOutput → Except String Unit)
    (text : String) (sourceInfo : SourceInfo) :
    Except String Unit × StreamTrace :=
  if trimSpace text = "" then
    (.error "input text cannot be empty", ⟨0, 0⟩)
  else if producerInitialized = false then
    (.error "kafka producer not initialized - call InitializeKafkaStreaming first", ⟨0, 0⟩)
  else
    let ac := { ac with sectionSize := calculateOptimalSectionSize text.length }
    let sections := divideIntoSections ac text
    let perJob := sections.mapIdx (fun i s => workerProcessJob (process i s) publish sourceInfo i)
    let results := (perJob.map Prod.fst).flatten
    let attempted := (perJob.map Prod.snd).flatten
    let processingErrors := results.filter (fun r => r.err.isSome)
    ((if processingErrors.length > 0 then .error "failed to process sections" else .ok ()),
      ⟨sections.length, attempted.length⟩)

/-! ### The buffered sink (logs_storage.go)

`flushBufferLocked` appears twice in the embedding pipeline's storage layer
(logs_storage.go lines 182-196 over `QdrantPoint`s and lines 789-803 over
`consumer.EnrichedChunk`s) with identical logic; it is embedded once,
generically in the record type.  The downstream batch write
(`upsertPoints` / `storeEmbeddingsInternal`) is an oracle. -/

/-- The buffer-related state of Go struct `QdrantClient`: the record list and
whether `flushTimer` is armed (the mutex is the lock under which
`flushBufferLocked` already runs). -/
structure BufferedSink (α : Type) where
  buffer : List α
  timerArmed : Bool
  deriving Repr, DecidableEq

/-- Function `flushBufferLocked` from logs_storage.go lines 182-196 and 789-803:
an empty buffer is a no-op; otherwise the records are copied out, the buffer
is reset to length zero and the timer stopped, and only then is the
downstream batch write attempted — its result is returned as flush's. -/
def flushBufferLocked {α : Type} (upsert : List α → Except String Unit)
    (st : BufferedSink α) : Except String Unit × BufferedSink α :=
  if st.buffer.length = 0 then (.ok (), st)
  else
    let points := st.buffer
    let st := { st with buffer := [] }
    let st := { st with timerArmed := false }
    (upsert points, st)

/-! ### A claim-side definition, for comparison only -/

/-- The adaptive sizing policy exactly as the claim's sentence states it
(over 100,000 characters a fixed 1800; otherwise `length/5` estimated words
divided by the desired concurrency 10, clamped to `[1200, 3600]`), to be
compared with `calculateOptimalSectionSize` as translated from the source. -/
def claimAdaptiveSectionSize (textLength : Nat) : Nat :=
  if textLength > 100000 then 1800
  else min 3600 (max 1200 (textLength / 5 / 10))

/-! ## Theorems -/

/-- C1, counterexample.  On a buffer holding one record, a failing downstream
batch write makes `flushBufferLocked` return the error with the buffer already
cleared (not retained, as the claim states), and the subsequent flush is an
empty no-op that succeeds without ever calling the downstream write (the
oracle here never returns `ok`, yet the second flush does). -/
theorem flushBufferLocked_drops_records_on_failure :
    (flushBufferLocked (fun _ : List Nat => Except.error "batch write failed") ⟨[7], true⟩ =
      (Except.error "batch write failed", ⟨[], false⟩)) ∧
    (flushBufferLocked (fun _ : List Nat => Except.error "batch write failed")
      (flushBufferLocked (fun _ : List Nat => Except.error "batch write failed") ⟨[7], true⟩).2 =
        (Except.ok (), ⟨[], false⟩)) := by
  exact ⟨rfl, rfl⟩

/-- C1, amended.  `flush` on an empty buffer is a no-op returning no error.
On a non-empty buffer the records are removed from the buffer *before* the
downstream write is attempted: the downstream write receives exactly the
buffered records and its result is returned, but the buffer is empty
afterwards whether it succeeded or failed, so a flush after a failure is an
empty no-op and the records are not re-sent. -/
theorem flushBufferLocked_spec {α : Type} (upsert : List α → Except String Unit)
    (st : BufferedSink α) :
    (st.buffer = [] → flushBufferLocked upsert st = (Except.ok (), st)) ∧
    (st.buffer ≠ [] →
      (flushBufferLocked upsert st).1 = upsert st.buffer ∧
      (flushBufferLocked upsert st).2.buffer = [] ∧
      (flushBufferLocked upsert st).2.timerArmed = false ∧
      flushBufferLocked upsert (flushBufferLocked upsert st).2 =
        (Except.ok (), (flushBufferLocked upsert st).2)) := by
  constructor
  · intro h
    simp [flushBufferLocked, h]
  · intro h
    have hlen : st.buffer.length ≠ 0 := by
      simpa [List.length_eq_zero] using h
    refine ⟨?_, ?_, ?_, ?_⟩ <;> simp [flushBufferLocked, hlen]

/-- C1, witness for `flushBufferLocked_spec` at concrete inputs. -/
theorem flushBufferLocked_spec_witness :
    (flushBufferLocked (fun _ : List Nat => Except.ok ()) ⟨[], true⟩ =
      (Except.ok (), ⟨[], true⟩)) ∧
    (flushBufferLocked (fun _ : List Nat => Except.error "down") ⟨[5], true⟩).2.buffer = [] := by
  refine ⟨?_, ?_⟩
  · exact (flushBufferLocked_spec (fun _ : List Nat => Except.ok ()) ⟨[], true⟩).1 rfl
  · exact (((flushBufferLocked_spec (fun _ : List Nat => Except.error "down") ⟨[5], true⟩).2
      (by decide)).2).1

/-- C2.  Evaluating the worker's job body at a section of two chunks whose
first publish fails and second succeeds: the worker still attempts the second
chunk's publish (remaining publishes are not terminated), sends a failed
`sectionResult` from inside the loop, and then also sends a final fully
successful `sectionResult` carrying both chunks — two outcomes for one
section, the last claiming success despite the failed publish. -/
theorem worker_publish_failure_not_section_atomic :
    (workerProcessJob
      (Except.ok [⟨"chunk_1_0_0", "one", ⟨"t", [], [], "", "", "", "", "", 1, 0, "ts"⟩⟩,
                  ⟨"chunk_1_0_1", "two", ⟨"t", [], [], "", "", "", "", "", 1, 1, "ts"⟩⟩])
      (fun out => if out.text = "one" then Except.error "delivery failed" else Except.ok ())
      ⟨"doc", "pdf", "", none, ""⟩ 0) =
    ([⟨none, some "delivery failed", 0⟩,
      ⟨some [⟨"chunk_1_0_0", "one", ⟨"t", [], [], "", "", "", "", "", 1, 0, "ts"⟩⟩,
             ⟨"chunk_1_0_1", "two", ⟨"t", [], [], "", "", "", "", "", 1, 1, "ts"⟩⟩], none, 0⟩],
     [toChunkOutput ⟨"doc", "pdf", "", none, ""⟩
        ⟨"chunk_1_0_0", "one", ⟨"t", [], [], "", "", "", "", "", 1, 0, "ts"⟩⟩,
      toChunkOutput ⟨"doc", "pdf", "", none, ""⟩
        ⟨"chunk_1_0_1", "two", ⟨"t", [], [], "", "", "", "", "", 1, 1, "ts"⟩⟩]) := by
  rfl

/-- C8, counterexample.  At a 60,000-character document — not over 100,000
characters, hence "small-to-medium" in the claim's dichotomy — the code
returns the fixed 3000 of its middle tier, while the claim's clamped formula
yields 1200. -/
theorem calculateOptimalSectionSize_counterexample :
    calculateOptimalSectionSize 60000 = 3000 ∧
    claimAdaptiveSectionSize 60000 = 1200 ∧ (3000 : Nat) ≠ 1200 := by
  decide

/-- C8, amended.  Lengths over 100,000 get the fixed small size 1800; lengths
in (50,000, 100,000] get a fixed 3000 (a tier the claim omits); lengths up to
50,000 get `length/5` estimated words divided by the desired concurrency 10,
clamped to `[1200, 3600]`. -/
theorem calculateOptimalSectionSize_spec (textLength : Nat) :
    (textLength > 100000 → calculateOptimalSectionSize textLength = 1800) ∧
    (50000 < textLength → textLength ≤ 100000 →
      calculateOptimalSectionSize textLength = 3000) ∧
    (textLength ≤ 50000 →
      calculateOptimalSectionSize textLength =
        min 3600 (max 1200 (textLength / 5 / 10))) := by
  refine ⟨?_, ?_, ?_⟩
  · intro h
    simp [calculateOptimalSectionSize, h]
  · intro h1 h2
    have : ¬ textLength > 100000 := by omega
    simp [calculateOptimalSectionSize, this, h1]
  · intro h
    have h1 : ¬ textLength > 100000 := by omega
    have h2 : ¬ textLength > 50000 := by omega
    simp only [calculateOptimalSectionSize, h1, h2, if_false]
    rcases lt_or_le (textLength / 5 / 10) 1200 with hlt | hge
    · simp [hlt]
      omega
    · have : ¬ textLength / 5 / 10 < 1200 := by omega
      have hle : textLength / 5 / 10 ≤ 3600 := by omega
      have : ¬ textLength / 5 / 10 > 3600 := by omega
      simp_all
      omega

/-- C8, witness for `calculateOptimalSectionSize_spec` at concrete lengths in
each tier. -/
theorem calculateOptimalSectionSize_spec_witness :
    calculateOptimalSectionSize 150000 = 1800 ∧
    calculateOptimalSectionSize 60000 = 3000 ∧
    calculateOptimalSectionSize 30000 = min 3600 (max 1200 (30000 / 5 / 10)) := by
  refine ⟨?_, ?_, ?_⟩
  · exact (calculateOptimalSectionSize_spec 150000).1 (by decide)
  · exact (calculateOptimalSectionSize_spec 60000).2.1 (by decide) (by decide)
  · exact (calculateOptimalSectionSize_spec 30000).2.2 (by decide)

/-- C6, counterexample.  For a concrete chunk whose id is "chunk_17_2_0" and
whose topic label is "networking", the bus message the publisher builds has
no key at all (`Partition` is `PartitionAny` and the message `Key` field is
never assigned), and its "chunk_id" header carries the topic label, not the
chunk id — so the message is neither keyed by the chunk's id nor carrying the
chunk id in its headers. -/
theorem streamChunkToKafka_not_keyed_by_id :
    (buildKafkaMessage "chunks" (fun _ => "json")
      (toChunkOutput ⟨"doc", "application/pdf", "", none, ""⟩
        ⟨"chunk_17_2_0", "hello world",
          ⟨"networking", [], [], "", "", "", "", "", 2, 0, "2024-01-01T00:00:00Z"⟩⟩)).key = none ∧
    (buildKafkaMessage "chunks" (fun _ => "json")
      (toChunkOutput ⟨"doc", "application/pdf", "", none, ""⟩
        ⟨"chunk_17_2_0", "hello world",
          ⟨"networking", [], [], "", "", "", "", "", 2, 0, "2024-01-01T00:00:00Z"⟩⟩)).headers.head? =
      some ⟨"chunk_id", "networking"⟩ ∧
    "networking" ≠ "chunk_17_2_0" := by
  exact ⟨rfl, rfl, by decide⟩

/-- C6, amended.  Every message the publisher produces carries no message
key; its headers carry the chunk's topic label (under the name "chunk_id"),
the document type, and the chunk timestamp; the publish waits on the
per-message delivery channel with a 5-second bound and succeeds exactly when
the producer accepted the message and the wait observed neither a
broker-reported delivery error nor a timeout. -/
theorem streamChunkToKafka_spec (kafkaTopic : String) (serialize : ChunkOutput → String)
    (produce : KafkaMessage → Option String) (delivery : DeliveryEvent)
    (chunk : ChunkOutput) :
    (buildKafkaMessage kafkaTopic serialize chunk).key = none ∧
    (buildKafkaMessage kafkaTopic serialize chunk).headers =
      [⟨"chunk_id", chunk.chunkMetadata.topic⟩,
       ⟨"document_type", chunk.source.documentType⟩,
       ⟨"timestamp", chunk.chunkMetadata.timestamp⟩] ∧
    deliveryTimeoutSeconds = 5 ∧
    (streamChunkToKafka kafkaTopic serialize produce delivery chunk = Except.ok () ↔
      produce (buildKafkaMessage kafkaTopic serialize chunk) = none ∧
        (delivery = DeliveryEvent.delivered ∨ delivery = DeliveryEvent.otherEvent)) := by
  refine ⟨rfl, rfl, rfl, ?_⟩
  unfold streamChunkToKafka
  rcases hp : produce (buildKafkaMessage kafkaTopic serialize chunk) with _ | e
  · cases delivery <;> simp [hp]
  · simp [hp]

/-- C6, witness for `streamChunkToKafka_spec` at a concrete publish. -/
theorem streamChunkToKafka_spec_witness :
    streamChunkToKafka "chunks" (fun _ => "json") (fun _ => none) DeliveryEvent.delivered
      (toChunkOutput ⟨"doc", "application/pdf", "", none, ""⟩
        ⟨"chunk_17_2_0", "hello world",
          ⟨"networking", [], [], "", "", "", "", "", 2, 0, "2024-01-01T00:00:00Z"⟩⟩) =
      Except.ok () := by
  exact (streamChunkToKafka_spec "chunks" (fun _ => "json") (fun _ => none)
    DeliveryEvent.delivered
    (toChunkOutput ⟨"doc", "application/pdf", "", none, ""⟩
      ⟨"chunk_17_2_0", "hello world",
        ⟨"networking", [], [], "", "", "", "", "", 2, 0, "2024-01-01T00:00:00Z"⟩⟩)).2.2.2.mpr
    ⟨rfl, Or.inl rfl⟩

/-- C10.  The streaming entry point rejects empty or whitespace-only input
text, and rejects an uninitialized producer, before computing sections or
touching any worker: in both cases it returns the corresponding error with
zero sections dispatched and zero publish attempts. -/
theorem chunkTextStreaming_guards (ac : AgenticChunker) (producerInitialized : Bool)
    (process : Nat → String → Except String (List Chunk))
    (publish : ChunkOutput → Except String Unit)
    (text : String) (sourceInfo : SourceInfo) :
    (trimSpace text = "" →
      chunkTextStreaming ac producerInitialized process publish text sourceInfo =
        (Except.error "input text cannot be empty", ⟨0, 0⟩)) ∧
    (trimSpace text ≠ "" → producerInitialized = false →
      chunkTextStreaming ac producerInitialized process publish text sourceInfo =
        (Except.error "kafka producer not initialized - call InitializeKafkaStreaming first",
          ⟨0, 0⟩)) := by
  constructor
  · intro h
    simp [chunkTextStreaming, h]
  · intro h hp
    simp [chunkTextStreaming, h, hp]

/-- C10, witness for `chunkTextStreaming_guards`: a whitespace-only text and
an uninitialized producer, at concrete inputs. -/
theorem chunkTextStreaming_guards_witness :
    (chunkTextStreaming ⟨3, 1800, 12000⟩ true (fun _ _ => Except.ok [])
      (fun _ => Except.ok ()) "  " ⟨"doc", "pdf", "", none, ""⟩ =
        (Except.error "input text cannot be empty", ⟨0, 0⟩)) ∧
    (chunkTextStreaming ⟨3, 1800, 12000⟩ false (fun _ _ => Except.ok [])
      (fun _ => Except.ok ()) "hello" ⟨"doc", "pdf", "", none, ""⟩ =
        (Except.error "kafka producer not initialized - call InitializeKafkaStreaming first",
          ⟨0, 0⟩)) := by
  constructor
  · exact (chunkTextStreaming_guards ⟨3, 1800, 12000⟩ true (fun _ _ => Except.ok [])
      (fun _ => Except.ok ()) "  " ⟨"doc", "pdf", "", none, ""⟩).1 (by decide)
  · exact (chunkTextStreaming_guards ⟨3, 1800, 12000⟩ false (fun _ _ => Except.ok [])
      (fun _ => Except.ok ()) "hello" ⟨"doc", "pdf", "", none, ""⟩).2 (by decide) rfl

/-- Unfolding of one loop iteration whose attempt succeeds: the call returns
that attempt's candidate text at once. -/
lemma callGeminiLoop_succ_step (oracle : Nat → GeminiAttempt) (a : Nat) (le : String)
    (r : Nat) (hs : (oracle a).isSuccess = true) :
    callGeminiLoop oracle a le (r + 1) =
      ⟨Except.ok (oracle a).text, 1, if a > 0 then [a * a] else []⟩ := by
  simp [callGeminiLoop, hs]

/-- Unfolding of one loop iteration whose attempt fails transiently: the
failure message is recorded and the loop continues with the next attempt. -/
lemma callGeminiLoop_fail_step (oracle : Nat → GeminiAttempt) (a : Nat) (le : String)
    (r : Nat) (hf : (oracle a).isSuccess = false) :
    callGeminiLoop oracle a le (r + 1) =
      ⟨(callGeminiLoop oracle (a + 1) ((oracle a).errMsg) r).result,
       (callGeminiLoop oracle (a + 1) ((oracle a).errMsg) r).attemptsUsed + 1,
       (if a > 0 then [a * a] else []) ++
         (callGeminiLoop oracle (a + 1) ((oracle a).errMsg) r).sleeps⟩ := by
  simp [callGeminiLoop, hf]

/-- Invariant of the retry loop entered at iteration `attempt = a` with `r`
iterations allowed: at least one and at most `r` further attempts are made;
the backoffs slept are exactly `n*n` seconds for each iteration index `n`
covered after the first; every attempt before the last one failed; a
successful result means the last attempt succeeded; an error result means
every allowed attempt was made and failed. -/
lemma callGeminiLoop_spec (oracle : Nat → GeminiAttempt) :
    ∀ (r a : Nat) (le : String), 1 ≤ r →
      1 ≤ (callGeminiLoop oracle a le r).attemptsUsed ∧
      (callGeminiLoop oracle a le r).attemptsUsed ≤ r ∧
      (1 ≤ a → (callGeminiLoop oracle a le r).sleeps =
        (List.range' a (callGeminiLoop oracle a le r).attemptsUsed).map (fun n => n * n)) ∧
      (a = 0 → (callGeminiLoop oracle a le r).sleeps =
        (List.range' 1 ((callGeminiLoop oracle a le r).attemptsUsed - 1)).map (fun n => n * n)) ∧
      (∀ j, j + 1 < (callGeminiLoop oracle a le r).attemptsUsed →
        (oracle (a + j)).isSuccess = false) ∧
      ((callGeminiLoop oracle a le r).result.isOk = true →
        (oracle (a + (callGeminiLoop oracle a le r).attemptsUsed - 1)).isSuccess = true) ∧
      ((callGeminiLoop oracle a le r).result.isOk = false →
        (callGeminiLoop oracle a le r).attemptsUsed = r ∧
        ∀ j, j < r → (oracle (a + j)).isSuccess = false) := by
  intro r
  induction r with
  | zero => intro a le h; exact absurd h (by omega)
  | succ r ih =>
    intro a le _
    by_cases hs : (oracle a).isSuccess = true
    · rw [callGeminiLoop_succ_step oracle a le r hs]
      refine ⟨Nat.le.refl, Nat.le_add_left 1 r, ?_, ?_, ?_, ?_, ?_⟩
      · intro ha
        simp [if_pos (show a > 0 by omega), List.range'_succ]
      · intro ha
        subst ha
        simp
      · intro j hj
        exact absurd hj (by simp)
      · intro _
        show (oracle (a + 1 - 1)).isSuccess = true
        have h0 : a + 1 - 1 = a := by omega
        rw [h0]
        exact hs
      · intro h
        simp [Except.isOk, Except.toBool] at h
    · have hf : (oracle a).isSuccess = false := by simpa using hs
      rw [callGeminiLoop_fail_step oracle a le r hf]
      rcases Nat.eq_zero_or_pos r with hr | hr
      · subst hr
        simp only [callGeminiLoop]
        refine ⟨Nat.le.refl, Nat.le.refl, ?_, ?_, ?_, ?_, ?_⟩
        · intro ha
          simp [if_pos (show a > 0 by omega), List.range'_succ]
        · intro ha
          subst ha
          simp
        · intro j hj
          exact absurd hj (by simp)
        · intro h
          simp [Except.isOk, Except.toBool] at h
        · intro _
          refine ⟨trivial, ?_⟩
          intro j hj
          have hj0 : j = 0 := by omega
          subst hj0
          simpa using hf
      · obtain ⟨h1, h2, h3, h4, h5, h6, h7⟩ := ih (a + 1) ((oracle a).errMsg) hr
        refine ⟨Nat.le_add_left 1 _, by show _ + 1 ≤ r + 1; omega, ?_, ?_, ?_, ?_, ?_⟩
        · intro ha
          have h3' := h3 (by omega)
          simp only [if_pos (show a > 0 by omega)]
          show [a * a] ++ _ = _
          rw [h3', List.range'_succ]
          simp
        · intro ha
          subst ha
          have h3' := h3 (by omega)
          simp only [show ¬ (0 > 0) by omega, if_neg, List.nil_append]
          show (callGeminiLoop oracle 1 ((oracle 0).errMsg) r).sleeps = _
          rw [h3']
          congr 1
        · intro j hj
          rcases j with _ | j'
          · simpa using hf
          · have heq : a + (j' + 1) = (a + 1) + j' := by omega
            rw [heq]
            exact h5 j' (by simp at hj; omega)
        · intro hok
          have h6' := h6 hok
          have heq : a + ((callGeminiLoop oracle (a + 1) ((oracle a).errMsg) r).attemptsUsed + 1) - 1 =
              (a + 1) + (callGeminiLoop oracle (a + 1) ((oracle a).errMsg) r).attemptsUsed - 1 := by
            omega
          show (oracle _).isSuccess = true
          rw [heq]
          exact h6'
        · intro hbad
          obtain ⟨hu, hall⟩ := h7 hbad
          refine ⟨by simp [hu], ?_⟩
          intro j hj
          rcases j with _ | j'
          · simpa using hf
          · have heq : a + (j' + 1) = (a + 1) + j' := by omega
            rw [heq]
            exact hall j' (by omega)


/-- C5.  An analysis call makes at most `maxRetries + 1` attempts (and at
least one); before the n-th retry (n starting at 1) it sleeps `n * n`
seconds; every non-final attempt ended in one of the transient failures
(rate-limit, transport error, bad status, unreadable or unparseable body,
empty candidate list, i.e. `isSuccess = false`), which is what triggered the
retry; a terminal error is surfaced only after all `maxRetries + 1` attempts
failed. -/
theorem callGeminiAPI_retry_bound (ac : AgenticChunker) (oracle : Nat → GeminiAttempt) :
    1 ≤ (callGeminiAPI ac oracle).attemptsUsed ∧
    (callGeminiAPI ac oracle).attemptsUsed ≤ ac.maxRetries + 1 ∧
    (callGeminiAPI ac oracle).sleeps =
      (List.range' 1 ((callGeminiAPI ac oracle).attemptsUsed - 1)).map (fun n => n * n) ∧
    (∀ j, j + 1 < (callGeminiAPI ac oracle).attemptsUsed → (oracle j).isSuccess = false) ∧
    ((callGeminiAPI ac oracle).result.isOk = true →
      (oracle ((callGeminiAPI ac oracle).attemptsUsed - 1)).isSuccess = true) ∧
    ((callGeminiAPI ac oracle).result.isOk = false →
      (callGeminiAPI ac oracle).attemptsUsed = ac.maxRetries + 1 ∧
      ∀ j, j ≤ ac.maxRetries → (oracle j).isSuccess = false) := by
  obtain ⟨h1, h2, h3, h4, h5, h6, h7⟩ :=
    callGeminiLoop_spec oracle (ac.maxRetries + 1) 0 "" (by omega)
  refine ⟨h1, h2, h4 rfl, ?_, ?_, ?_⟩
  · intro j hj
    simpa using h5 j hj
  · intro hok
    simpa using h6 hok
  · intro hbad
    obtain ⟨hu, hall⟩ := h7 hbad
    refine ⟨hu, ?_⟩
    intro j hj
    simpa using hall j (by omega)

/-- C5, witness for `callGeminiAPI_retry_bound`: with `maxRetries = 3` and an
always-rate-limited endpoint, exactly 4 attempts and backoffs 1, 4, 9. -/
theorem callGeminiAPI_retry_bound_witness :
    (callGeminiAPI ⟨3, 1800, 12000⟩ (fun _ => GeminiAttempt.rateLimited)).attemptsUsed = 4 ∧
    (callGeminiAPI ⟨3, 1800, 12000⟩ (fun _ => GeminiAttempt.rateLimited)).sleeps = [1, 4, 9] := by
  have h := callGeminiAPI_retry_bound ⟨3, 1800, 12000⟩ (fun _ => GeminiAttempt.rateLimited)
  have hu : (callGeminiAPI ⟨3, 1800, 12000⟩ (fun _ => GeminiAttempt.rateLimited)).attemptsUsed = 4 :=
    (h.2.2.2.2.2 (by decide)).1
  refine ⟨hu, ?_⟩
  have hs := h.2.2.1
  rw [hu] at hs
  simpa using hs


lemma string_mk_data (s : String) : (⟨s.data⟩ : String) = s := by
  cases s
  rfl

/-- String length is the length of the character data. -/
lemma string_length_data (s : String) : s.length = s.data.length := rfl

/-- Unfolding of `joinSpace` on a list of at least two words. -/
lemma joinSpace_cons_cons (w v : String) (ws : List String) :
    joinSpace (w :: v :: ws) = w ++ " " ++ joinSpace (v :: ws) := rfl

/-- Character data of `joinSpace` on at least two words. -/
lemma joinSpace_data_cons_cons (w v : String) (ws : List String) :
    (joinSpace (w :: v :: ws)).data = w.data ++ ' ' :: (joinSpace (v :: ws)).data := by
  rw [joinSpace_cons_cons, String.data_append, String.data_append]
  have hsp : (" " : String).data = [' '] := rfl
  rw [hsp, List.append_assoc]
  rfl

/-- Scanning a whitespace-free word just moves it into the accumulator. -/
lemma fieldsAux_word (w : List Char) :
    ∀ (rest acc : List Char), (∀ c ∈ w, c.isWhitespace = false) →
      fieldsAux (w ++ rest) acc = fieldsAux rest (w.reverse ++ acc) := by
  induction w with
  | nil => intro rest acc _; simp
  | cons c w' ih =>
    intro rest acc h
    have hc : c.isWhitespace = false := h c (by simp)
    show fieldsAux (c :: (w' ++ rest)) acc = _
    rw [fieldsAux, hc]
    simp only [Bool.false_eq_true, if_false]
    rw [ih rest (c :: acc) (fun x hx => h x (by simp [hx]))]
    simp

/-- Every word `fieldsAux` emits is non-empty and whitespace-free. -/
lemma fieldsAux_sound (l : List Char) :
    ∀ (acc : List Char), (∀ c ∈ acc, c.isWhitespace = false) →
      ∀ w ∈ fieldsAux l acc, w ≠ [] ∧ ∀ c ∈ w, c.isWhitespace = false := by
  induction l with
  | nil =>
    intro acc hacc w hw
    rw [fieldsAux] at hw
    by_cases ha : acc = []
    · simp [ha] at hw
    · simp [ha] at hw
      subst hw
      refine ⟨by simpa using ha, ?_⟩
      intro c hc
      exact hacc c (by simpa using hc)
  | cons c cs ih =>
    intro acc hacc w hw
    rw [fieldsAux] at hw
    by_cases hc : c.isWhitespace
    · rw [if_pos hc] at hw
      by_cases ha : acc = []
      · rw [if_pos ha] at hw
        exact ih [] (by simp) w hw
      · rw [if_neg ha] at hw
        rcases List.mem_cons.mp hw with hw | hw
        · subst hw
          refine ⟨by simpa using ha, ?_⟩
          intro x hx
          exact hacc x (by simpa using hx)
        · exact ih [] (by simp) w hw
    · rw [if_neg hc] at hw
      refine ih (c :: acc) ?_ w hw
      intro x hx
      rcases List.mem_cons.mp hx with hx | hx
      · subst hx
        simpa using hc
      · exact hacc x hx

/-- Every word of `fields s` is non-empty and whitespace-free. -/
lemma fields_sound (s : String) :
    ∀ w ∈ fields s, w ≠ "" ∧ ∀ c ∈ w.data, c.isWhitespace = false := by
  intro w hw
  rw [fields] at hw
  obtain ⟨l, hl, hmk⟩ := List.mem_map.mp hw
  obtain ⟨hne, hws⟩ := fieldsAux_sound s.data [] (by simp) l hl
  subst hmk
  constructor
  · intro hcon
    apply hne
    have : (String.mk l).data = ("" : String).data := by rw [hcon]
    simpa using this
  · intro c hc
    exact hws c (by simpa using hc)


/-- Splitting a space-join of non-empty whitespace-free words recovers exactly those words (character level). -/
lemma fieldsAux_joinSpace_data (ws : List String)
    (h : ∀ w ∈ ws, w.data ≠ [] ∧ ∀ c ∈ w.data, c.isWhitespace = false) :
    fieldsAux (joinSpace ws).data [] = ws.map String.data := by
  induction ws with
  | nil => rfl
  | cons w ws ih =>
    rcases ws with _ | ⟨v, rest⟩
    · obtain ⟨hne, hws⟩ := h w (by simp)
      show fieldsAux w.data [] = [w.data]
      have hsplit : w.data = w.data ++ [] := by simp
      rw [hsplit, fieldsAux_word w.data [] [] hws]
      rw [fieldsAux]
      rw [if_neg (by simpa using hne)]
      simp
    · obtain ⟨hne, hws⟩ := h w (by simp)
      rw [joinSpace_data_cons_cons]
      rw [fieldsAux_word w.data (' ' :: (joinSpace (v :: rest)).data) [] hws]
      rw [fieldsAux]
      rw [if_pos (by decide : (' ' : Char).isWhitespace = true)]
      rw [if_neg (by simpa using hne)]
      rw [ih (fun x hx => h x (by simp [hx]))]
      simp

/-- Splitting a space-join of non-empty whitespace-free words recovers exactly those words. -/
lemma fields_joinSpace (ws : List String)
    (h : ∀ w ∈ ws, w ≠ "" ∧ ∀ c ∈ w.data, c.isWhitespace = false) :
    fields (joinSpace ws) = ws := by
  rw [fields, fieldsAux_joinSpace_data]
  · rw [List.map_map]
    have : (String.mk ∘ String.data) = id := by
      funext s
      exact string_mk_data s
    rw [this, List.map_id]
  · intro w hw
    obtain ⟨hne, hws⟩ := h w hw
    refine ⟨?_, hws⟩
    intro hcon
    apply hne
    have := congrArg String.mk hcon
    simpa [string_mk_data] using this

/-- A space-join of non-empty whitespace-free words starts with a non-whitespace character. -/
lemma joinSpace_data_head (ws : List String) (hne : ws ≠ [])
    (h : ∀ w ∈ ws, w.data ≠ [] ∧ ∀ c ∈ w.data, c.isWhitespace = false) :
    ∃ c l, (joinSpace ws).data = c :: l ∧ c.isWhitespace = false := by
  rcases ws with _ | ⟨w, ws⟩
  · exact absurd rfl hne
  · obtain ⟨hwne, hws⟩ := h w (by simp)
    rcases hd : w.data with _ | ⟨c, l⟩
    · exact absurd hd hwne
    · have hc : c.isWhitespace = false := hws c (by simp [hd])
      rcases ws with _ | ⟨v, rest⟩
      · exact ⟨c, l, by simpa using hd, hc⟩
      · refine ⟨c, l ++ ' ' :: (joinSpace (v :: rest)).data, ?_, hc⟩
        rw [joinSpace_data_cons_cons, hd]
        simp

/-- A space-join of non-empty whitespace-free words ends with a non-whitespace character. -/
lemma joinSpace_data_last (ws : List String) (hne : ws ≠ [])
    (h : ∀ w ∈ ws, w.data ≠ [] ∧ ∀ c ∈ w.data, c.isWhitespace = false) :
    ∃ c l, (joinSpace ws).data.reverse = c :: l ∧ c.isWhitespace = false := by
  induction ws with
  | nil => exact absurd rfl hne
  | cons w ws ih =>
    rcases ws with _ | ⟨v, rest⟩
    · obtain ⟨hwne, hws⟩ := h w (by simp)
      rcases hr : w.data.reverse with _ | ⟨c, l⟩
      · exact absurd (by simpa using hr) hwne
      · refine ⟨c, l, by simpa using hr, ?_⟩
        apply hws
        have : c ∈ w.data.reverse := by simp [hr]
        simpa using this
    · obtain ⟨c, l, hcl, hc⟩ := ih (by simp) (fun x hx => h x (by simp [hx]))
      refine ⟨c, l ++ ' ' :: w.data.reverse, ?_, hc⟩
      rw [joinSpace_data_cons_cons, List.reverse_append]
      rw [show (' ' :: (joinSpace (v :: rest)).data).reverse =
            (joinSpace (v :: rest)).data.reverse ++ [' '] by simp]
      rw [hcl]
      simp

/-- Trimming a space-join of non-empty whitespace-free words changes nothing. -/
lemma trimSpace_joinSpace (ws : List String) (hne : ws ≠ [])
    (h : ∀ w ∈ ws, w ≠ "" ∧ ∀ c ∈ w.data, c.isWhitespace = false) :
    trimSpace (joinSpace ws) = joinSpace ws := by
  have h' : ∀ w ∈ ws, w.data ≠ [] ∧ ∀ c ∈ w.data, c.isWhitespace = false := by
    intro w hw
    obtain ⟨hne', hws⟩ := h w hw
    refine ⟨?_, hws⟩
    intro hcon
    apply hne'
    have := congrArg String.mk hcon
    simpa [string_mk_data] using this
  obtain ⟨c1, l1, hd1, hc1⟩ := joinSpace_data_head ws hne h'
  obtain ⟨c2, l2, hd2, hc2⟩ := joinSpace_data_last ws hne h'
  rw [trimSpace, hd1]
  rw [List.dropWhile_cons_of_neg (by simp [hc1])]
  rw [← hd1, hd2]
  rw [List.dropWhile_cons_of_neg (by simp [hc2])]
  rw [← hd2]
  simp [string_mk_data]


/-- Space-joining a concatenation of two non-empty word lists inserts a single separating space. -/
lemma joinSpace_append (s1 s2 : List String) (h1 : s1 ≠ []) (h2 : s2 ≠ []) :
    joinSpace (s1 ++ s2) = joinSpace s1 ++ " " ++ joinSpace s2 := by
  induction s1 with
  | nil => exact absurd rfl h1
  | cons w s1 ih =>
    rcases s1 with _ | ⟨u, s1'⟩
    · rcases s2 with _ | ⟨v, rest⟩
      · exact absurd rfl h2
      · rfl
    · have step : joinSpace (w :: (u :: s1') ++ s2) =
          w ++ " " ++ joinSpace ((u :: s1') ++ s2) := by
        rcases s2 with _ | ⟨v, rest⟩
        · exact absurd rfl h2
        · rfl
      rw [show (w :: u :: s1') ++ s2 = w :: ((u :: s1') ++ s2) by rfl] at *
      rw [step, ih (by simp) ]
      rw [joinSpace_cons_cons]
      simp [String.append_assoc]

/-- Space-joining already-joined non-empty sections equals joining all their words at once. -/
lemma joinSpace_flatten_map (secs : List (List String))
    (h : ∀ sec ∈ secs, sec ≠ []) :
    joinSpace (secs.map joinSpace) = joinSpace secs.flatten := by
  induction secs with
  | nil => rfl
  | cons s secs ih =>
    rcases secs with _ | ⟨t, rest⟩
    · show joinSpace [joinSpace s] = joinSpace (s ++ [].flatten)
      rw [show (s ++ ([] : List (List String)).flatten) = s by simp]
      rfl
    · have hs : s ≠ [] := h s (by simp)
      have hflat : ((t :: rest).flatten : List String) ≠ [] := by
        have ht : t ≠ [] := h t (by simp)
        rcases t with _ | ⟨x, t'⟩
        · exact absurd rfl ht
        · simp [List.flatten]
      show joinSpace (joinSpace s :: (t :: rest).map joinSpace) = _
      rw [show ((t :: rest).map joinSpace) = joinSpace t :: rest.map joinSpace by rfl]
      rw [joinSpace_cons_cons]
      rw [show (joinSpace t :: rest.map joinSpace) = (t :: rest).map joinSpace by rfl]
      rw [ih (fun x hx => h x (by simp [hx]))]
      show _ = joinSpace (s ++ (t :: rest).flatten)
      rw [joinSpace_append s ((t :: rest).flatten) hs hflat]

/-- Appending a word to a non-empty section adds the separator and the word to its length, exactly as the builder in the source does. -/
lemma joinSpace_length_push (cur : List String) (w : String) (h : cur ≠ []) :
    (joinSpace (cur ++ [w])).length = (joinSpace cur).length + 1 + w.length := by
  rw [joinSpace_append cur [w] h (by simp)]
  show ((joinSpace cur ++ " ") ++ (joinSpace [w])).length = _
  rw [String.length_append, String.length_append]
  rfl

/-- A space-join of a non-empty list of non-empty words has positive length. -/
lemma joinSpace_length_pos (cur : List String) (hne : cur ≠ [])
    (h : ∀ w ∈ cur, w ≠ "") : 0 < (joinSpace cur).length := by
  rcases cur with _ | ⟨w, rest⟩
  · exact absurd rfl hne
  · have hw : w ≠ "" := h w (by simp)
    have hwd : w.data ≠ [] := by
      intro hcon
      apply hw
      have := congrArg String.mk hcon
      simpa [string_mk_data] using this
    rcases rest with _ | ⟨v, rest'⟩
    · show 0 < w.length
      rw [string_length_data]
      exact List.length_pos.mpr hwd
    · rw [string_length_data, joinSpace_data_cons_cons]
      simp

/-- With non-empty words, a zero-length builder means no words at all. -/
lemma joinSpace_nil_of_length_zero (cur : List String)
    (h : ∀ w ∈ cur, w ≠ "") (hz : ¬ 0 < (joinSpace cur).length) : cur = [] := by
  by_contra hcon
  exact hz (joinSpace_length_pos cur hcon h)


/-- Unfolding of `divideStep` into its emit / accumulate branches. -/
lemma divideStep_eq (ac : AgenticChunker) (secs : List (List String))
    (cur : List String) (wc : Nat) (w : String) :
    divideStep ac (secs, cur, wc) w =
      if (decide (wc ≥ ac.sectionSize) ||
          (decide ((joinSpace cur).length > 0) &&
            decide ((joinSpace cur).length + w.length + 1 > ac.maxCharsPerSection))) &&
          decide ((joinSpace cur).length > 0)
      then (secs ++ [cur], [w], 1)
      else (secs, cur ++ [w], wc + 1) := rfl

/-- One partitioning step conserves the words seen so far. -/
lemma divideStep_flatten (ac : AgenticChunker) (secs : List (List String))
    (cur : List String) (wc : Nat) (w : String) :
    (divideStep ac (secs, cur, wc) w).1.flatten ++ (divideStep ac (secs, cur, wc) w).2.1 =
      secs.flatten ++ cur ++ [w] := by
  rw [divideStep_eq]
  split
  · simp
  · simp

/-- The partitioning fold conserves the word sequence: emitted sections plus the open section hold exactly the initial words plus the words consumed, in order. -/
lemma divide_fold_join (ac : AgenticChunker) (ws : List String) :
    ∀ (secs : List (List String)) (cur : List String) (wc : Nat),
      ((ws.foldl (divideStep ac) (secs, cur, wc)).1).flatten ++
        (ws.foldl (divideStep ac) (secs, cur, wc)).2.1 =
      secs.flatten ++ cur ++ ws := by
  induction ws with
  | nil => intro secs cur wc; simp
  | cons w ws ih =>
    intro secs cur wc
    rw [List.foldl_cons]
    rcases hstep : divideStep ac (secs, cur, wc) w with ⟨secs', cur', wc'⟩
    have hkey := divideStep_flatten ac secs cur wc w
    rw [hstep] at hkey
    simp only [] at hkey
    rw [ih secs' cur' wc', hkey]
    simp

/-- Any per-word property of the input words is inherited by every word of every section the fold produces. -/
lemma divide_fold_words (ac : AgenticChunker) (Q : String → Prop) (ws : List String) :
    ∀ (secs : List (List String)) (cur : List String) (wc : Nat),
      (∀ w ∈ ws, Q w) → (∀ s ∈ secs, ∀ x ∈ s, Q x) → (∀ x ∈ cur, Q x) →
      (∀ s ∈ (ws.foldl (divideStep ac) (secs, cur, wc)).1, ∀ x ∈ s, Q x) ∧
      (∀ x ∈ (ws.foldl (divideStep ac) (secs, cur, wc)).2.1, Q x) := by
  induction ws with
  | nil =>
    intro secs cur wc _ hsecs hcur
    exact ⟨hsecs, hcur⟩
  | cons w ws ih =>
    intro secs cur wc hws hsecs hcur
    rw [List.foldl_cons, divideStep_eq]
    have hw : Q w := hws w (by simp)
    have hws' : ∀ x ∈ ws, Q x := fun x hx => hws x (by simp [hx])
    split
    · refine ih _ _ _ hws' ?_ ?_
      · intro s hs
        rcases List.mem_append.mp hs with hs | hs
        · exact hsecs s hs
        · intro x hx
          rw [List.mem_singleton.mp hs] at hx
          exact hcur x hx
      · intro x hx
        rw [List.mem_singleton.mp hx]
        exact hw
    · refine ih _ _ _ hws' hsecs ?_
      intro x hx
      rcases List.mem_append.mp hx with hx | hx
      · exact hcur x hx
      · rw [List.mem_singleton.mp hx]
        exact hw

/-- The fold never emits an empty section: the emit branch fires only on a builder of positive length. -/
lemma divide_fold_sections_ne (ac : AgenticChunker) (ws : List String) :
    ∀ (secs : List (List String)) (cur : List String) (wc : Nat),
      (∀ s ∈ secs, s ≠ []) →
      ∀ s ∈ (ws.foldl (divideStep ac) (secs, cur, wc)).1, s ≠ [] := by
  induction ws with
  | nil =>
    intro secs cur wc hsecs
    exact hsecs
  | cons w ws ih =>
    intro secs cur wc hsecs
    rw [List.foldl_cons, divideStep_eq]
    split
    · rename_i hcond
      apply ih
      intro s hs
      rcases List.mem_append.mp hs with hs | hs
      · exact hsecs s hs
      · rw [List.mem_singleton.mp hs]
        intro hnil
        rw [hnil] at hcond
        simp only [Bool.and_eq_true] at hcond
        have h2 := hcond.2
        simp [joinSpace] at h2
    · exact ih _ _ _ hsecs


/-- C3.  For every configuration and input text, the space-joined
concatenation of the sections returned by the partitioner, in index order,
has exactly the word sequence of the original text: no word is dropped,
duplicated or reordered. -/
theorem divideIntoSections_word_coverage (ac : AgenticChunker) (text : String) :
    fields (joinSpace (divideIntoSections ac text)) = fields text := by
  have hwords := fields_sound text
  set ws := fields text with hws
  set st := ws.foldl (divideStep ac) ([], [], 0) with hst
  have hjoin := divide_fold_join ac ws [] [] 0
  simp only [List.flatten_nil, List.nil_append] at hjoin
  have hQ := divide_fold_words ac
    (fun w => w ≠ "" ∧ ∀ c ∈ w.data, c.isWhitespace = false) ws [] [] 0
    hwords (by simp) (by simp)
  have hne := divide_fold_sections_ne ac ws [] [] 0 (by simp)
  rw [← hst] at hjoin hQ hne
  have hunfold : divideIntoSections ac text =
      (if (joinSpace st.2.1).length > 0 then st.1 ++ [st.2.1] else st.1).map
        (fun sec => trimSpace (joinSpace sec)) := rfl
  rw [hunfold]
  by_cases hlen : (joinSpace st.2.1).length > 0
  · rw [if_pos hlen]
    have hne' : ∀ s ∈ st.1 ++ [st.2.1], s ≠ [] := by
      intro s hs
      rcases List.mem_append.mp hs with hs | hs
      · exact hne s hs
      · rw [List.mem_singleton.mp hs]
        intro hnil
        rw [hnil] at hlen
        simp [joinSpace] at hlen
    have hprops : ∀ s ∈ st.1 ++ [st.2.1], ∀ x ∈ s,
        x ≠ "" ∧ ∀ c ∈ x.data, c.isWhitespace = false := by
      intro s hs
      rcases List.mem_append.mp hs with hs | hs
      · exact hQ.1 s hs
      · rw [List.mem_singleton.mp hs]
        exact hQ.2
    have hmap : (st.1 ++ [st.2.1]).map (fun sec => trimSpace (joinSpace sec)) =
        (st.1 ++ [st.2.1]).map joinSpace := by
      apply List.map_congr_left
      intro s hs
      exact trimSpace_joinSpace s (hne' s hs) (hprops s hs)
    rw [hmap, joinSpace_flatten_map _ hne']
    rw [fields_joinSpace _ ?hflat]
    case hflat =>
      intro x hx
      obtain ⟨s, hs, hxs⟩ := List.mem_flatten.mp hx
      exact hprops s hs x hxs
    rw [show (st.1 ++ [st.2.1]).flatten = st.1.flatten ++ st.2.1 by simp]
    exact hjoin
  · rw [if_neg hlen]
    have hcurnil : st.2.1 = [] :=
      joinSpace_nil_of_length_zero st.2.1 (fun x hx => (hQ.2 x hx).1) hlen
    have hmap : st.1.map (fun sec => trimSpace (joinSpace sec)) = st.1.map joinSpace := by
      apply List.map_congr_left
      intro s hs
      exact trimSpace_joinSpace s (hne s hs) (hQ.1 s hs)
    rw [hmap, joinSpace_flatten_map _ hne]
    rw [fields_joinSpace _ ?hflat2]
    case hflat2 =>
      intro x hx
      obtain ⟨s, hs, hxs⟩ := List.mem_flatten.mp hx
      exact hQ.1 s hs x hxs
    rw [← hjoin, hcurnil]
    simp


/-- The bounds invariant of the partitioning fold: provided the target is at least one word and every input word fits the character ceiling, the open section and every emitted section respect both the word-count target and the character ceiling. -/
lemma divide_fold_bounds (ac : AgenticChunker) (hsize : 1 ≤ ac.sectionSize) (ws : List String) :
    ∀ (secs : List (List String)) (cur : List String) (wc : Nat),
      (∀ w ∈ ws, w ≠ "" ∧ w.length ≤ ac.maxCharsPerSection) →
      wc = cur.length →
      (∀ x ∈ cur, x ≠ "") →
      cur.length ≤ ac.sectionSize →
      (joinSpace cur).length ≤ ac.maxCharsPerSection →
      (∀ s ∈ secs, s.length ≤ ac.sectionSize ∧ (joinSpace s).length ≤ ac.maxCharsPerSection) →
      (∀ x ∈ (ws.foldl (divideStep ac) (secs, cur, wc)).2.1, x ≠ "") ∧
      (ws.foldl (divideStep ac) (secs, cur, wc)).2.1.length ≤ ac.sectionSize ∧
      (joinSpace (ws.foldl (divideStep ac) (secs, cur, wc)).2.1).length ≤ ac.maxCharsPerSection ∧
      (∀ s ∈ (ws.foldl (divideStep ac) (secs, cur, wc)).1,
        s.length ≤ ac.sectionSize ∧ (joinSpace s).length ≤ ac.maxCharsPerSection) := by
  induction ws with
  | nil =>
    intro secs cur wc _ _ hcur hclen hchars hsecs
    exact ⟨hcur, hclen, hchars, hsecs⟩
  | cons w ws ih =>
    intro secs cur wc hws hwc hcur hclen hchars hsecs
    have hw : w ≠ "" := (hws w (by simp)).1
    have hwlen : w.length ≤ ac.maxCharsPerSection := (hws w (by simp)).2
    have hws' : ∀ x ∈ ws, x ≠ "" ∧ x.length ≤ ac.maxCharsPerSection :=
      fun x hx => hws x (by simp [hx])
    rw [List.foldl_cons, divideStep_eq]
    split
    · rename_i hcond
      refine ih (secs ++ [cur]) [w] 1 hws' rfl ?_ hsize ?_ ?_
      · intro x hx
        rw [List.mem_singleton.mp hx]
        exact hw
      · show (joinSpace [w]).length ≤ ac.maxCharsPerSection
        exact hwlen
      · intro s hs
        rcases List.mem_append.mp hs with hs | hs
        · exact hsecs s hs
        · rw [List.mem_singleton.mp hs]
          exact ⟨hclen, hchars⟩
    · rename_i hcond
      rw [Bool.not_eq_true] at hcond
      by_cases hnil : cur = []
      · subst hnil
        refine ih secs [w] (wc + 1) hws' ?_ ?_ hsize ?_ hsecs
        · simp at hwc
          simp [hwc]
        · intro x hx
          rw [List.mem_singleton.mp hx]
          exact hw
        · show (joinSpace [w]).length ≤ ac.maxCharsPerSection
          exact hwlen
      · have hpos : 0 < (joinSpace cur).length := joinSpace_length_pos cur hnil hcur
        have hd2 : decide ((joinSpace cur).length > 0) = true := decide_eq_true hpos
        rw [hd2, Bool.and_true] at hcond
        have hor := hcond
        rw [Bool.or_eq_false_iff] at hor
        obtain ⟨hA, hB⟩ := hor
        have hwcsize : ¬ wc ≥ ac.sectionSize := of_decide_eq_false hA
        rw [Bool.true_and] at hB
        have hcharsle : ¬ ((joinSpace cur).length + w.length + 1 > ac.maxCharsPerSection) :=
          of_decide_eq_false hB
        refine ih secs (cur ++ [w]) (wc + 1) hws' ?_ ?_ ?_ ?_ hsecs
        · simp [hwc]
        · intro x hx
          rcases List.mem_append.mp hx with hx | hx
          · exact hcur x hx
          · rw [List.mem_singleton.mp hx]
            exact hw
        · rw [List.length_append]
          simp only [List.length_singleton]
          omega
        · rw [joinSpace_length_push cur w hnil]
          omega


/-- C4, amended.  Provided the word-count target is at least 1 and no single
whitespace-delimited word of the text is longer than `maxCharsPerSection`,
every section the partitioner returns is non-empty, holds at most the target
number of words, and is at most `maxCharsPerSection` characters long.  (The
counterexample shows the character bound fails, as the claim states it, on a
single word longer than the ceiling, which becomes its own over-long
section.) -/
theorem divideIntoSections_bounds (ac : AgenticChunker) (text : String)
    (hsize : 1 ≤ ac.sectionSize)
    (hwords : ∀ w ∈ fields text, w.length ≤ ac.maxCharsPerSection) :
    ∀ s ∈ divideIntoSections ac text,
      s ≠ "" ∧ (fields s).length ≤ ac.sectionSize ∧ s.length ≤ ac.maxCharsPerSection := by
  have hsound := fields_sound text
  set ws := fields text with hws
  set st := ws.foldl (divideStep ac) ([], [], 0) with hst
  have hbounds := divide_fold_bounds ac hsize ws [] [] 0
    (fun w hw => ⟨(hsound w hw).1, hwords w hw⟩) rfl (by simp) (by simp)
    (by simp [joinSpace]) (by simp)
  have hQ := divide_fold_words ac
    (fun w => w ≠ "" ∧ ∀ c ∈ w.data, c.isWhitespace = false) ws [] [] 0
    hsound (by simp) (by simp)
  have hne := divide_fold_sections_ne ac ws [] [] 0 (by simp)
  rw [← hst] at hbounds hQ hne
  obtain ⟨hcur_ne, hcur_len, hcur_chars, hsecs_bounds⟩ := hbounds
  have hunfold : divideIntoSections ac text =
      (if (joinSpace st.2.1).length > 0 then st.1 ++ [st.2.1] else st.1).map
        (fun sec => trimSpace (joinSpace sec)) := rfl
  rw [hunfold]
  intro s hs
  obtain ⟨sec, hsec, hsval⟩ := List.mem_map.mp hs
  -- collect the per-section facts, for both the emitted and the final section
  have hsec_facts : sec ≠ [] ∧ (∀ x ∈ sec, x ≠ "" ∧ ∀ c ∈ x.data, c.isWhitespace = false) ∧
      sec.length ≤ ac.sectionSize ∧ (joinSpace sec).length ≤ ac.maxCharsPerSection := by
    by_cases hlen : (joinSpace st.2.1).length > 0
    · rw [if_pos hlen] at hsec
      rcases List.mem_append.mp hsec with hsec | hsec
      · exact ⟨hne sec hsec, hQ.1 sec hsec, (hsecs_bounds sec hsec).1, (hsecs_bounds sec hsec).2⟩
      · rw [List.mem_singleton.mp hsec]
        refine ⟨?_, hQ.2, hcur_len, hcur_chars⟩
        intro hnil
        rw [hnil] at hlen
        simp [joinSpace] at hlen
    · rw [if_neg hlen] at hsec
      exact ⟨hne sec hsec, hQ.1 sec hsec, (hsecs_bounds sec hsec).1, (hsecs_bounds sec hsec).2⟩
  obtain ⟨hsec_ne, hsec_words, hsec_count, hsec_chars⟩ := hsec_facts
  have htrim : trimSpace (joinSpace sec) = joinSpace sec :=
    trimSpace_joinSpace sec hsec_ne hsec_words
  rw [← hsval, htrim]
  refine ⟨?_, ?_, hsec_chars⟩
  · have hpos : 0 < (joinSpace sec).length :=
      joinSpace_length_pos sec hsec_ne (fun x hx => (hsec_words x hx).1)
    intro hcon
    rw [hcon] at hpos
    simp at hpos
  · rw [fields_joinSpace sec hsec_words]
    exact hsec_count

/-- C4, counterexample.  With character ceiling 5, the single 6-character
word "abcdef" is emitted as a section of length 6 > 5: a section can exceed
`maxCharsPerSection` whenever one word alone does, so the claimed unqualified
character bound is false. -/
theorem divideIntoSections_char_bound_counterexample :
    divideIntoSections ⟨3, 1800, 5⟩ "abcdef" = ["abcdef"] ∧
    ¬ (("abcdef" : String).length ≤ 5) := by
  constructor
  · rfl
  · decide

/-- C4, witness for `divideIntoSections_bounds` at a concrete input
(target 2 words, ceiling 10 characters, text "aa bb cc"). -/
theorem divideIntoSections_bounds_witness :
    ("aa bb" ≠ "" ∧ (fields "aa bb").length ≤ 2 ∧ ("aa bb" : String).length ≤ 10) := by
  have h := divideIntoSections_bounds ⟨3, 2, 10⟩ "aa bb cc" (by decide) (by decide)
  exact h "aa bb" (by decide)


/-- The sub-section grouping loop conserves the word sequence. -/
lemma chunkEveryGo_flatten (k : Nat) (hk : 1 ≤ k) :
    ∀ (fuel : Nat) (ws : List String), ws.length ≤ fuel →
      (chunkEveryGo k fuel ws).flatten = ws := by
  intro fuel
  induction fuel with
  | zero =>
    intro ws hlen
    have : ws = [] := List.eq_nil_of_length_eq_zero (by omega)
    subst this
    rfl
  | succ fuel ih =>
    intro ws hlen
    rcases ws with _ | ⟨w, ws'⟩
    · rfl
    · show (((w :: ws').take k) :: chunkEveryGo k fuel ((w :: ws').drop k)).flatten = w :: ws'
      rw [List.flatten_cons]
      rw [ih ((w :: ws').drop k) (by rw [List.length_drop]; simp only [List.length_cons] at hlen ⊢; omega)]
      exact List.take_append_drop k (w :: ws')

/-- Every group the loop produces is non-empty, holds at most `k` words, and only words of the input. -/
lemma chunkEveryGo_mem (k : Nat) (hk : 1 ≤ k) :
    ∀ (fuel : Nat) (ws : List String) (g : List String), g ∈ chunkEveryGo k fuel ws →
      (g ≠ [] ∧ g.length ≤ k ∧ ∀ x ∈ g, x ∈ ws) := by
  intro fuel
  induction fuel with
  | zero =>
    intro ws g hg
    rcases ws with _ | ⟨w, ws'⟩ <;> simp [chunkEveryGo] at hg
  | succ fuel ih =>
    intro ws g hg
    rcases ws with _ | ⟨w, ws'⟩
    · simp [chunkEveryGo] at hg
    · rcases List.mem_cons.mp hg with hg | hg
      · subst hg
        refine ⟨?_, ?_, ?_⟩
        · rcases k with _ | k'
          · omega
          · simp [List.take]
        · rw [List.length_take]
          exact min_le_left _ _
        · intro x hx
          exact List.mem_of_mem_take hx
      · obtain ⟨hne, hlen, hmem⟩ := ih _ g hg
        exact ⟨hne, hlen, fun x hx => List.mem_of_mem_drop (hmem x hx)⟩

/-- Every group except possibly the last holds exactly `k` words. -/
lemma chunkEveryGo_dropLast (k : Nat) (hk : 1 ≤ k) :
    ∀ (fuel : Nat) (ws : List String), ws.length ≤ fuel →
      ∀ g ∈ (chunkEveryGo k fuel ws).dropLast, g.length = k := by
  intro fuel
  induction fuel with
  | zero =>
    intro ws hlen g hg
    have : ws = [] := List.eq_nil_of_length_eq_zero (by omega)
    subst this
    simp [chunkEveryGo] at hg
  | succ fuel ih =>
    intro ws hlen g hg
    rcases ws with _ | ⟨w, ws'⟩
    · simp [chunkEveryGo] at hg
    · simp only [chunkEveryGo] at hg
      rcases hrest : chunkEveryGo k fuel ((w :: ws').drop k) with _ | ⟨r, rest'⟩
      · rw [hrest] at hg
        simp at hg
      · rw [hrest] at hg
        rw [List.dropLast_cons₂] at hg
        rcases List.mem_cons.mp hg with hg | hg
        · subst hg
          have hdrop_ne : (w :: ws').drop k ≠ [] := by
            intro hcon
            rw [hcon] at hrest
            rcases fuel with _ | f <;> simp [chunkEveryGo] at hrest
          have hklen : k < (w :: ws').length := by
            by_contra hcon
            exact hdrop_ne (List.drop_eq_nil_iff.mpr (by omega))
          rw [List.length_take]
          omega
        · rw [← hrest] at hg
          exact ih ((w :: ws').drop k) (by rw [List.length_drop]; simp only [List.length_cons] at hlen ⊢; omega) g hg

/-- At most `m` groups are produced from at most `k * m` words. -/
lemma chunkEveryGo_count (k : Nat) (hk : 1 ≤ k) :
    ∀ (m fuel : Nat) (ws : List String), ws.length ≤ fuel → ws.length ≤ k * m →
      (chunkEveryGo k fuel ws).length ≤ m := by
  intro m
  induction m with
  | zero =>
    intro fuel ws hfuel hm
    have : ws = [] := List.eq_nil_of_length_eq_zero (by omega)
    subst this
    rcases fuel with _ | f <;> simp [chunkEveryGo]
  | succ m ihm =>
    intro fuel ws hfuel hm
    rcases ws with _ | ⟨w, ws'⟩
    · rcases fuel with _ | f <;> simp [chunkEveryGo]
    · rcases fuel with _ | f
      · simp at hfuel
      · show ((((w :: ws').take k) :: chunkEveryGo k f ((w :: ws').drop k)).length ≤ m + 1)
        rw [List.length_cons]
        have hmul : k * (m + 1) = k * m + k := by ring
        have := ihm f ((w :: ws').drop k)
          (by rw [List.length_drop]; simp only [List.length_cons] at hfuel ⊢; omega)
          (by rw [List.length_drop]; simp only [List.length_cons] at hm ⊢; omega)
        omega


/-- C7.  An oversized section is split into sub-sections of exactly
`maxCharsPerSection / 6` words each, except the last, which may be shorter;
no sub-section is empty; their concatenation preserves the section's word
sequence; at most 1000 sub-sections arise from any section of at most
`(maxCharsPerSection / 6) * 1000` words, and for every sub-index below 1000
the combined key `sectionIndex * 1000 + subIndex` that `processSubSection`
passes on determines the original section index (`key / 1000`) and the
sub-index (`key % 1000`), so the sub-index never replaces the primary
section index. -/
theorem splitLargeSection_spec (ac : AgenticChunker) (text : String)
    (hk : 1 ≤ ac.maxCharsPerSection / 6) :
    ((splitLargeSection ac text).map fields).flatten = fields text ∧
    (∀ s ∈ splitLargeSection ac text,
      s ≠ "" ∧ (fields s).length ≤ ac.maxCharsPerSection / 6) ∧
    (∀ s ∈ (splitLargeSection ac text).dropLast,
      (fields s).length = ac.maxCharsPerSection / 6) ∧
    ((fields text).length ≤ (ac.maxCharsPerSection / 6) * 1000 →
      (splitLargeSection ac text).length ≤ 1000) ∧
    (∀ sectionIndex subIndex : Nat, subIndex < 1000 →
      subSectionKey sectionIndex subIndex / 1000 = sectionIndex ∧
      subSectionKey sectionIndex subIndex % 1000 = subIndex) := by
  set k := ac.maxCharsPerSection / 6 with hkdef
  have hsound := fields_sound text
  set ws := fields text with hws
  have hkne : ¬ k = 0 := by omega
  have hunfold : splitLargeSection ac text = (chunkEveryGo k ws.length ws).map joinSpace := by
    rw [splitLargeSection, chunkEvery, if_neg hkne]
  have hgmem : ∀ g ∈ chunkEveryGo k ws.length ws,
      g ≠ [] ∧ g.length ≤ k ∧ ∀ x ∈ g, x ∈ ws :=
    fun g hg => chunkEveryGo_mem k hk ws.length ws g hg
  have hgwords : ∀ g ∈ chunkEveryGo k ws.length ws, ∀ x ∈ g,
      x ≠ "" ∧ ∀ c ∈ x.data, c.isWhitespace = false := by
    intro g hg x hx
    exact hsound x ((hgmem g hg).2.2 x hx)
  have hfieldsg : ∀ g ∈ chunkEveryGo k ws.length ws, fields (joinSpace g) = g := by
    intro g hg
    exact fields_joinSpace g (hgwords g hg)
  refine ⟨?_, ?_, ?_, ?_, ?_⟩
  · rw [hunfold, List.map_map]
    have : (chunkEveryGo k ws.length ws).map (fields ∘ joinSpace) =
        (chunkEveryGo k ws.length ws).map id := by
      apply List.map_congr_left
      intro g hg
      exact hfieldsg g hg
    rw [this, List.map_id]
    exact chunkEveryGo_flatten k hk ws.length ws (le_refl _)
  · rw [hunfold]
    intro s hs
    obtain ⟨g, hg, hgs⟩ := List.mem_map.mp hs
    obtain ⟨hgne, hglen, _⟩ := hgmem g hg
    constructor
    · rw [← hgs]
      have hpos : 0 < (joinSpace g).length :=
        joinSpace_length_pos g hgne (fun x hx => (hgwords g hg x hx).1)
      intro hcon
      rw [hcon] at hpos
      simp at hpos
    · rw [← hgs, hfieldsg g hg]
      exact hglen
  · rw [hunfold]
    intro s hs
    rw [← List.map_dropLast] at hs
    obtain ⟨g, hg, hgs⟩ := List.mem_map.mp hs
    have hgfull := chunkEveryGo_dropLast k hk ws.length ws (le_refl _) g hg
    have hgin : g ∈ chunkEveryGo k ws.length ws := List.dropLast_subset _ hg
    rw [← hgs, hfieldsg g hgin]
    exact hgfull
  · intro hcount
    rw [hunfold, List.length_map]
    exact chunkEveryGo_count k hk 1000 ws.length ws (le_refl _) hcount
  · intro si sub hsub
    constructor
    · rw [subSectionKey]
      omega
    · rw [subSectionKey]
      omega

/-- C7, witness for `splitLargeSection_spec` with a 2-word grouping of
"a b c" and the key pair (5, 7). -/
theorem splitLargeSection_spec_witness :
    ((splitLargeSection ⟨3, 1800, 12⟩ "a b c").map fields).flatten = fields "a b c" ∧
    ((splitLargeSection ⟨3, 1800, 12⟩ "a b c").length ≤ 1000) ∧
    (subSectionKey 5 7 / 1000 = 5 ∧ subSectionKey 5 7 % 1000 = 7) := by
  have h := splitLargeSection_spec ⟨3, 1800, 12⟩ "a b c" (by decide)
  exact ⟨h.1, h.2.2.2.1 (by decide), h.2.2.2.2 5 7 (by decide)⟩


/-- C9.  Whenever the response parser succeeds, the decoder was applied to
the code-fence-stripped, trimmed response, and every synthesized chunk's
`wordCount` is the number of whitespace-separated words of that chunk's
parsed content (computed locally, never read from the remote response, whose
schema has no word-count field) and its `timestamp` is the parse-time
instant passed in. -/
theorem parseGeminiResponse_spec (decode : String → Option GeminiChunkerResponse)
    (nowUnix : Nat) (nowTimestamp : String) (response : String) (sectionIndex : Nat)
    (chunks : List Chunk)
    (h : parseGeminiResponse decode nowUnix nowTimestamp response sectionIndex =
      Except.ok chunks) :
    (decode (stripCodeFence response)).isSome = true ∧
    ∀ c ∈ chunks,
      c.metadata.wordCount = (fields c.content).length ∧
      c.metadata.timestamp = nowTimestamp := by
  rw [parseGeminiResponse] at h
  rcases hd : decode (stripCodeFence response) with _ | r
  · rw [hd] at h
    simp at h
  · rw [hd] at h
    simp only [Except.ok.injEq] at h
    refine ⟨by simp [hd], ?_⟩
    intro c hc
    rw [← h] at hc
    rw [List.mapIdx_eq_enum_map] at hc
    obtain ⟨⟨i, gc⟩, _, heq⟩ := List.mem_map.mp hc
    rw [← heq]
    exact ⟨rfl, rfl⟩

/-- C9, witness for `parseGeminiResponse_spec` on a concrete fenced response
decoded by a concrete decoder. -/
theorem parseGeminiResponse_spec_witness :
    ((fun s => if s = "PAYLOAD"
        then some (⟨[⟨"a b", "t", [], [], "", "", "", "", ""⟩]⟩ : GeminiChunkerResponse)
        else none)
      (stripCodeFence "```jsonPAYLOAD```")).isSome = true := by
  refine (parseGeminiResponse_spec
    (fun s => if s = "PAYLOAD"
      then some (⟨[⟨"a b", "t", [], [], "", "", "", "", ""⟩]⟩ : GeminiChunkerResponse)
      else none)
    99 "2024-01-01T00:00:00Z" "```jsonPAYLOAD```" 7
    [⟨mkChunkID 99 7 0, "a b",
      ⟨"t", [], [], "", "", "", "", "", 2, 0, "2024-01-01T00:00:00Z"⟩⟩]
    (by rfl)).1


end Orbit
